import Mathlib

/-!
Verification of `pcfg_manager/markov_cracker.py` (KamiSec/pcfg_cracker).

This file gives a shallow embedding of the two classes of the source file:

* `MarkovCracker` — the statistics model: a dictionary from characters to
  per-character records (`markov_stats`) plus the first loaded character
  (`start_letter`), built line by line by `load_markov_stats`.
* `MarkovIndex` — the enumeration cursor: the bounds, the current guess
  (a list of characters, `none` meaning not-started/exhausted) and the
  cached cumulative level.

Python dictionaries are embedded as association lists (insertion-ordered,
unique keys via `ainsert`).  Python `int` is `Int`; machine overflow does
not arise.  Fallible operations (KeyError, IndexError, `int()` parse
failure, `chr()` range failure) are `Option` with `none` for the raised
exception.  The unbounded `while True` loops of `next_guess` and
`dig_deeper` are embedded with an explicit fuel parameter; `none` also
covers fuel exhaustion, so every theorem about a *successful* call is
conditioned on `= some …`.

File input is abstracted to the list of text lines handed to the loader;
everything after the `open(...)` call is modelled character by character
(`str.strip`, `str.split`, `int(...)`, `chr(...)`, `s[:-1]`, `in`).
-/

namespace MarkovVerif

/-- Association-list lookup, mirroring Python `d[k]` (read). -/
def alookup {β : Type} : List (Char × β) → Char → Option β
  | [], _ => none
  | (k, v) :: rest, c => if k = c then some v else alookup rest c

/-- Association-list in-place value update, mirroring Python `d[k] = f d[k]`
for a key that is present (no-op when absent; the source only updates
present keys). -/
def aupdate {β : Type} (f : β → β) : List (Char × β) → Char → List (Char × β)
  | [], _ => []
  | (k, v) :: rest, c => if k = c then (k, f v) :: rest else (k, v) :: aupdate f rest c

/-- Association-list insert-or-overwrite, mirroring Python `d[k] = v`:
an existing key keeps its position, a new key is appended (insertion
order, as in a Python 3.7+ dict). -/
def ainsert {β : Type} : List (Char × β) → Char → β → List (Char × β)
  | [], c, v => [(c, v)]
  | (k, w) :: rest, c, v => if k = c then (c, v) :: rest else (k, w) :: ainsert rest c v

/-- Python `lst[-1]` as an `Option` (IndexError on the empty list). -/
def pyLast : List Char → Option Char
  | [] => none
  | [x] => some x
  | _ :: y :: rest => pyLast (y :: rest)

/-- Python `lst[-2]` as an `Option` (IndexError when fewer than two
elements). -/
def pyPenult : List Char → Option Char
  | [] => none
  | [_] => none
  | [x, _] => some x
  | _ :: y :: z :: rest => pyPenult (y :: z :: rest)

/-- Python `lst[-1] = x` as an `Option` (IndexError on the empty list). -/
def pySetLast (g : List Char) (x : Char) : Option (List Char) :=
  match g with
  | [] => none
  | _ :: _ => some (g.dropLast ++ [x])

/-- Python `sub in s` (substring containment test). -/
def pyContains (sub : List Char) : List Char → Bool
  | [] => sub.isEmpty
  | x :: rest => sub.isPrefixOf (x :: rest) || pyContains sub rest

/-- Worker for `pySplit`; the fuel is the length of the scanned list, so it
never runs out. -/
def pySplitAux (sep : List Char) : Nat → List Char → List Char → List (List Char)
  | _, [], acc => [acc.reverse]
  | 0, s, acc => [acc.reverse ++ s]
  | fuel + 1, x :: rest, acc =>
    if sep.isPrefixOf (x :: rest) then
      acc.reverse :: pySplitAux sep fuel (List.drop (sep.length - 1) rest) []
    else
      pySplitAux sep fuel rest (x :: acc)

/-- Python `s.split(sep)` for a non-empty separator: split at every
occurrence, keeping empty parts. -/
def pySplit (sep s : List Char) : List (List Char) :=
  if sep.isEmpty then [s] else pySplitAux sep s.length s []

/-- Whitespace for Python `str.strip` (the characters that occur in stats
files: space, tab, newline, carriage return, form feed, vertical tab). -/
def pySpace (c : Char) : Bool :=
  c = ' ' || c = '\t' || c = '\n' || c = '\r' || c = '\x0c' || c = '\x0b'

/-- Python `s.strip()`. -/
def pyStrip (s : List Char) : List Char :=
  ((s.dropWhile pySpace).reverse.dropWhile pySpace).reverse

/-- Digit-string value accumulator for `pyInt`. -/
def pyDigitsAux : Nat → List Char → Option Nat
  | acc, [] => some acc
  | acc, c :: r => if c.isDigit then pyDigitsAux (acc * 10 + (c.toNat - 48)) r else none

/-- Python `int(s)`: optional surrounding whitespace, optional sign, at
least one decimal digit; `none` for the `ValueError` otherwise. -/
def pyInt (s : List Char) : Option Int :=
  match pyStrip s with
  | [] => none
  | '-' :: rest =>
    match rest with
    | [] => none
    | _ :: _ => (pyDigitsAux 0 rest).map (fun n => -(n : Int))
  | '+' :: rest =>
    match rest with
    | [] => none
    | _ :: _ => (pyDigitsAux 0 rest).map (fun n => (n : Int))
  | t => (pyDigitsAux 0 t).map (fun n => (n : Int))

/-- Python `chr(n)`: valid for code points `0 ≤ n < 0x110000`, `ValueError`
otherwise.  (Python also admits surrogate code points, which Lean's `Char`
cannot carry; `Char.ofNat` maps those to `⟨0⟩`.  No stats line in any claim
involves a surrogate.) -/
def pyChr (n : Int) : Option Char :=
  if 0 ≤ n ∧ n < 1114112 then some (Char.ofNat n.toNat) else none

/-- Python `s[:-1]`. -/
def pyDropLast (s : List Char) : List Char := s.dropLast

/-- One entry of a `following_letters` dictionary:
`{'probability': …, 'next': …}`. -/
structure FollowingEntry where
  probability : Int
  next : Option Char
  deriving DecidableEq

/-- One entry of the `markov_stats` dictionary:
`{'probability': …, 'following_letters': …, 'first_child': …,
'last_child': …, 'next': …}`. -/
structure LetterEntry where
  probability : Int
  following_letters : List (Char × FollowingEntry)
  first_child : Option Char
  last_child : Option Char
  next : Option Char
  deriving DecidableEq

/-- The `MarkovCracker` object after loading: `self.markov_stats` and
`self.start_letter`. -/
structure MarkovCracker where
  markov_stats : List (Char × LetterEntry)
  start_letter : Option Char
  deriving DecidableEq

/-- The `MarkovIndex` cursor object.  `guess = none` is Python
`self.guess = None`, covering both the not-yet-started and the exhausted
state. -/
structure MarkovIndex where
  min_level : Int
  max_level : Int
  guess : Option (List Char)
  guess_level : Int
  deriving DecidableEq

/-- `MarkovIndex.__init__(min_level, max_level)`: no validation of any
kind is performed; the bounds are stored as given (defaults 0 and 1000 in
the source). -/
def markovIndexInit (mn : Int := 0) (mx : Int := 1000) : MarkovIndex :=
  { min_level := mn, max_level := mx, guess := none, guess_level := 0 }

/-- Mutable state of the `load_markov_stats` loop: the dictionary under
construction, `self.start_letter`, and the local `prev_proba1`. -/
structure LoaderState where
  stats : List (Char × LetterEntry)
  start_letter : Option Char
  prev_proba1 : Option Char
  deriving DecidableEq

/-- One iteration of the `for line in file` loop of `load_markov_stats`
(lines 87–130 of the source): dispatch on the substrings `'=proba1'` /
`'=proba2'`, parse positionally, update the dictionary and the sibling
links; `none` is any raised exception or the explicit `return None` of the
`else` branch. -/
def load_line (st : LoaderState) (line : List Char) : Option LoaderState :=
  if pyContains "=proba1".data line then
    -- results = line.strip().split("=proba1["); results[1] = results[1][:-1]
    match (pySplit "=proba1[".data (pyStrip line)).get? 1 with
    | none => none
    | some p1 =>
      -- letter = chr(int(results[1]))
      match pyInt (pyDropLast p1) with
      | none => none
      | some code =>
        match pyChr code with
        | none => none
        | some letter =>
          -- prob = int(results[0])
          match (pySplit "=proba1[".data (pyStrip line)).get? 0 with
          | none => none
          | some p0 =>
            match pyInt p0 with
            | none => none
            | some prob =>
              let stats1 := ainsert st.stats letter
                { probability := prob, following_letters := [],
                  first_child := none, last_child := none, next := none }
              let start1 := match st.start_letter with
                | none => some letter
                | some s => some s
              let stats2 := match st.prev_proba1 with
                | none => stats1
                | some prev => aupdate (fun e => { e with next := some letter }) stats1 prev
              some { stats := stats2, start_letter := start1, prev_proba1 := some letter }
  else if pyContains "=proba2".data line then
    match (pySplit "=proba2[".data (pyStrip line)).get? 0 with
    | none => none
    | some p0 =>
      -- prob = int(results[0])
      match pyInt p0 with
      | none => none
      | some prob =>
        match (pySplit "=proba2[".data (pyStrip line)).get? 1 with
        | none => none
        | some p1 =>
          -- results = results[1].split('*256+')
          match (pySplit "*256+".data p1).get? 0 with
          | none => none
          | some q0 =>
            match pyInt q0 with
            | none => none
            | some code1 =>
              match pyChr code1 with
              | none => none
              | some letter1 =>
                match (pySplit "*256+".data p1).get? 1 with
                | none => none
                | some q1 =>
                  match pyInt (pyDropLast q1) with
                  | none => none
                  | some code2 =>
                    match pyChr code2 with
                    | none => none
                    | some letter2 =>
                      -- KeyError if letter1 was never declared:
                      match alookup st.stats letter1 with
                      | none => none
                      | some e0 =>
                        let e1 := { e0 with following_letters :=
                          (ainsert e0.following_letters letter2
                            { probability := prob, next := none }) }
                        let e2 := match e1.last_child with
                          | none => e1
                          | some lc => { e1 with following_letters :=
                              (aupdate (fun fe => { fe with next := some letter2 })
                                e1.following_letters lc) }
                        let e3 := match e2.first_child with
                          | none => { e2 with first_child := some letter2 }
                          | some _ => e2
                        let e4 := { e3 with last_child := some letter2 }
                        some { st with stats := aupdate (fun _ => e4) st.stats letter1 }
  else
    -- "Invalid line in Markov stats file" → return None
    none

/-- The `for line in file` loop, aborting on the first failing line. -/
def load_lines : LoaderState → List String → Option LoaderState
  | st, [] => some st
  | st, l :: ls =>
    match load_line st l.data with
    | none => none
    | some st' => load_lines st' ls

/-- `load_markov_stats` over the lines of the stats file, composed with the
`MarkovCracker.__init__` failure propagation: a `None`/exception from the
loader makes `__init__` raise, so no object is produced at all. -/
def load_markov_stats (lines : List String) : Option MarkovCracker :=
  (load_lines { stats := [], start_letter := none, prev_proba1 := none } lines).map
    fun st => { markov_stats := st.stats, start_letter := st.start_letter }

/-- `dig_deeper` (source lines 238–258): repeatedly append the current last
character's `first_child`.  Returns the produced guess (or `None`) together
with the mutated cursor; the outer `none` is an exception or fuel
exhaustion of the `while True` loop. -/
def dig_deeper (c : MarkovCracker) : Nat → MarkovIndex → Option (Option String × MarkovIndex)
  | 0, _ => none
  | fuel + 1, idx =>
    match idx.guess with
    | none => none
    | some g =>
      match pyLast g with
      | none => none
      | some prev_letter =>
        match alookup c.markov_stats prev_letter with
        | none => none
        | some e =>
          match e.first_child with
          | none => some (none, idx)
          | some cur_letter =>
            match alookup e.following_letters cur_letter with
            | none => none
            | some fe =>
              let cur_level := idx.guess_level + fe.probability
              if idx.min_level ≤ cur_level ∧ cur_level ≤ idx.max_level then
                some (some (String.mk (g ++ [cur_letter])),
                  { idx with guess := some (g ++ [cur_letter]), guess_level := cur_level })
              else if idx.max_level < cur_level then
                some (none, idx)
              else
                dig_deeper c fuel
                  { idx with guess := some (g ++ [cur_letter]), guess_level := cur_level }

/-- `dig_wider_base` (source lines 209–232): advance the single start
character along the top-level sibling chain.  Returns
`(more_work, ret_value, mutated cursor)`. -/
def dig_wider_base (c : MarkovCracker) (idx : MarkovIndex) (parent_letter : Char) :
    Option (Bool × Option String × MarkovIndex) :=
  match alookup c.markov_stats parent_letter with
  | none => none
  | some pe =>
    match pe.next with
    | none => some (false, none, { idx with guess := none })
    | some cur_letter =>
      match alookup c.markov_stats cur_letter with
      | none => none
      | some ce =>
        let idx1 := { idx with guess_level := ce.probability }
        if idx1.max_level < idx1.guess_level then
          some (false, none, { idx1 with guess := none })
        else
          match idx1.guess with
          | none => none
          | some g =>
            match pySetLast g cur_letter with
            | none => none
            | some g' =>
              let idx2 := { idx1 with guess := some g' }
              if idx2.min_level ≤ idx2.guess_level ∧ idx2.guess_level ≤ idx2.max_level then
                some (false, some (String.mk g'), idx2)
              else
                some (true, none, idx2)

/-- Result of the inner `while True` loop of `next_guess` (source lines
162–202): either a `return` of the whole call or a `break` back to the
outer loop. -/
inductive InnerRes where
  | ret : Option String → MarkovIndex → InnerRes
  | brk : MarkovIndex → InnerRes
  deriving DecidableEq

/-- The inner `while True` loop of `next_guess` (source lines 162–202):
back out and try other letters at the same depth, or lower. -/
def inner_loop (c : MarkovCracker) : Nat → MarkovIndex → Option InnerRes
  | 0, _ => none
  | fuel + 1, idx =>
    match idx.guess with
    | none => none
    | some g =>
      -- parent_letter = markov_index.guess[-1]
      match pyLast g with
      | none => none
      | some parent_letter =>
        if g.length = 1 then
          match dig_wider_base c idx parent_letter with
          | none => none
          | some (more_work, ret_value, idx') =>
            if more_work = true then some (.brk idx') else some (.ret ret_value idx')
        else
          -- prev_letter = markov_index.guess[-2]
          match pyPenult g with
          | none => none
          | some prev_letter =>
            match alookup c.markov_stats prev_letter with
            | none => none
            | some pe =>
              match alookup pe.following_letters parent_letter with
              | none => none
              | some fe =>
                let idx1 := { idx with guess_level := idx.guess_level - fe.probability }
                match fe.next with
                | none =>
                  -- del markov_index.guess[-1]; continue
                  inner_loop c fuel { idx1 with guess := some g.dropLast }
                | some cur_letter =>
                  match alookup pe.following_letters cur_letter with
                  | none => none
                  | some fe2 =>
                    let cur_level := idx1.guess_level + fe2.probability
                    if idx1.min_level ≤ cur_level ∧ cur_level ≤ idx1.max_level then
                      match pySetLast g cur_letter with
                      | none => none
                      | some g' =>
                        some (.ret (some (String.mk g'))
                          { idx1 with guess := some g', guess_level := cur_level })
                    else if cur_level < idx1.max_level then
                      match pySetLast g cur_letter with
                      | none => none
                      | some g' =>
                        some (.brk { idx1 with guess := some g', guess_level := cur_level })
                    else
                      -- del markov_index.guess[-1]  (all remaining siblings abandoned)
                      inner_loop c fuel { idx1 with guess := some g.dropLast }

/-- The outer `while True` loop of `next_guess` (source lines 154–202). -/
def outer_loop (c : MarkovCracker) : Nat → MarkovIndex → Option (Option String × MarkovIndex)
  | 0, _ => none
  | fuel + 1, idx =>
    match dig_deeper c (fuel + 1) idx with
    | none => none
    | some (some s, idx1) => some (some s, idx1)
    | some (none, idx1) =>
      match inner_loop c (fuel + 1) idx1 with
      | none => none
      | some (.ret v idx2) => some (v, idx2)
      | some (.brk idx2) => outer_loop c fuel idx2

/-- `next_guess` (source lines 144–204): seed the chain when the cursor is
fresh (or was exhausted — the source reuses `guess = None` for both), then
run the traversal loops.  The result pairs the Python return value
(`some s` a guess, `none` the exhaustion signal) with the mutated cursor;
the outer `none` is an exception or fuel exhaustion. -/
def next_guess (c : MarkovCracker) (fuel : Nat) (idx : MarkovIndex) :
    Option (Option String × MarkovIndex) :=
  match idx.guess with
  | some _ => outer_loop c fuel idx
  | none =>
    match c.start_letter with
    | none => none  -- markov_stats[None] raises KeyError
    | some sl =>
      match alookup c.markov_stats sl with
      | none => none
      | some e =>
        let idx1 := { idx with guess := some [sl], guess_level := e.probability }
        if idx1.min_level ≤ idx1.guess_level ∧ idx1.guess_level ≤ idx1.max_level then
          some (some (String.mk [sl]), idx1)
        else
          outer_loop c fuel idx1

/-- Run `next_guess` repeatedly until it signals exhaustion, collecting the
returned guesses; `none` when the step budget `k`, the per-call fuel, or an
exception cuts the run short of exhaustion. -/
def collect_guesses (c : MarkovCracker) (fuel : Nat) : Nat → MarkovIndex → Option (List String)
  | 0, _ => none
  | k + 1, idx =>
    match next_guess c fuel idx with
    | none => none
    | some (none, _) => some []
    | some (some s, idx') => (collect_guesses c fuel k idx').map (fun l => s :: l)

/-- The first at-most-`k` guesses of a session (stopping early at
exhaustion or failure). -/
def take_guesses (c : MarkovCracker) (fuel : Nat) : Nat → MarkovIndex → List String
  | 0, _ => []
  | k + 1, idx =>
    match next_guess c fuel idx with
    | none => []
    | some (none, _) => []
    | some (some s, idx') => s :: take_guesses c fuel k idx'

/-- Level accumulator: the transition contributions of `rest` walked from
the character `x`, starting from the partial sum `acc`. -/
def pathLevelAux (c : MarkovCracker) : Int → Char → List Char → Option Int
  | acc, _, [] => some acc
  | acc, x, y :: rest =>
    match alookup c.markov_stats x with
    | none => none
    | some e =>
      match alookup e.following_letters y with
      | none => none
      | some fe => pathLevelAux c (acc + fe.probability) y rest

/-- The cumulative level of a guess recomputed from the model: the
`start_probability` of its first character plus the transition
probabilities along consecutive character pairs (the spec's definition of
`level`); `none` when the guess is empty or walks outside the model. -/
def pathLevel (c : MarkovCracker) : List Char → Option Int
  | [] => none
  | a :: rest =>
    match alookup c.markov_stats a with
    | none => none
    | some e => pathLevelAux c e.probability a rest

/-- Cursor well-formedness: whenever a guess is present it is non-empty and
the cached `guess_level` equals the level recomputed from the model. -/
def level_inv (c : MarkovCracker) (idx : MarkovIndex) : Prop :=
  ∀ g, idx.guess = some g → g ≠ [] ∧ pathLevel c g = some idx.guess_level

/-- A well-behaved step result: the bounds are untouched, the cursor is
well-formed again, and any returned guess is the cursor's path, with its
recomputed level inside the bounds. -/
def good_guess (c : MarkovCracker) (mn mx : Int) (r : Option String × MarkovIndex) : Prop :=
  r.2.min_level = mn ∧ r.2.max_level = mx ∧ level_inv c r.2 ∧
    ∀ s, r.1 = some s → ∃ g, r.2.guess = some g ∧ s = String.mk g ∧
      pathLevel c g = some r.2.guess_level ∧ mn ≤ r.2.guess_level ∧ r.2.guess_level ≤ mx

/-- `good_guess` lifted to the result of the inner loop. -/
def good_inner (c : MarkovCracker) (mn mx : Int) : InnerRes → Prop
  | .ret v idx => good_guess c mn mx (v, idx)
  | .brk idx => idx.min_level = mn ∧ idx.max_level = mx ∧ level_inv c idx

/-- Every transition probability stored in the model is positive. -/
def probs_pos (c : MarkovCracker) : Prop :=
  ∀ p ∈ c.markov_stats, ∀ q ∈ p.2.following_letters, 0 < q.2.probability

/-- The model of §8's concrete scenario, as `load_markov_stats` builds it
from the four stats lines (unigrams a=0 then b=5, bigrams a→a=0 then
a→b=3). -/
def modelScenario : MarkovCracker :=
  { markov_stats :=
      [('a', { probability := 0,
               following_letters := [('a', { probability := 0, next := some 'b' }),
                                     ('b', { probability := 3, next := none })],
               first_child := some 'a', last_child := some 'b', next := some 'b' }),
       ('b', { probability := 5, following_letters := [],
               first_child := none, last_child := none, next := none })],
    start_letter := some 'a' }

/-- A model whose sibling order (load order) is not probability order:
unigrams a=0, b=50, c=60, d=70; bigrams a→b=0, a→c=100, a→d=1. -/
def modelPrune : MarkovCracker :=
  { markov_stats :=
      [('a', { probability := 0,
               following_letters := [('b', { probability := 0, next := some 'c' }),
                                     ('c', { probability := 100, next := some 'd' }),
                                     ('d', { probability := 1, next := none })],
               first_child := some 'b', last_child := some 'd', next := some 'b' }),
       ('b', { probability := 50, following_letters := [],
               first_child := none, last_child := none, next := some 'c' }),
       ('c', { probability := 60, following_letters := [],
               first_child := none, last_child := none, next := some 'd' }),
       ('d', { probability := 70, following_letters := [],
               first_child := none, last_child := none, next := none })],
    start_letter := some 'a' }

/-- The model the loader builds from unigrams a=0, y=0 and the *duplicated*
bigram line a→y=1, a→y=1: the duplicate load makes y its own next sibling
under a. -/
def modelDup : MarkovCracker :=
  { markov_stats :=
      [('a', { probability := 0,
               following_letters := [('y', { probability := 1, next := some 'y' })],
               first_child := some 'y', last_child := some 'y', next := some 'y' }),
       ('y', { probability := 0, following_letters := [],
               first_child := none, last_child := none, next := none })],
    start_letter := some 'a' }

/-- A one-character model: the single unigram a=0. -/
def modelSolo : MarkovCracker :=
  { markov_stats :=
      [('a', { probability := 0, following_letters := [],
               first_child := none, last_child := none, next := none })],
    start_letter := some 'a' }

/-- A model with all transition probabilities positive: unigrams a=0, b=1;
bigrams a→a=100, a→b=1. -/
def modelPos : MarkovCracker :=
  { markov_stats :=
      [('a', { probability := 0,
               following_letters := [('a', { probability := 100, next := some 'b' }),
                                     ('b', { probability := 1, next := none })],
               first_child := some 'a', last_child := some 'b', next := some 'b' }),
       ('b', { probability := 1, following_letters := [],
               first_child := none, last_child := none, next := none })],
    start_letter := some 'a' }

/-- The model of an empty stats file: no characters at all. -/
def emptyCracker : MarkovCracker := { markov_stats := [], start_letter := none }

/-! ### List helpers -/

theorem pyLast_concat : ∀ (init : List Char) (p : Char), pyLast (init ++ [p]) = some p
  | [], _ => rfl
  | [_], _ => rfl
  | _ :: y :: rest, p => by
    simpa [pyLast] using pyLast_concat (y :: rest) p

theorem exists_concat_of_pyLast : ∀ (g : List Char) (p : Char), pyLast g = some p →
    ∃ init, g = init ++ [p]
  | [], _, h => by simp [pyLast] at h
  | [x], p, h => by
    simp [pyLast] at h
    exact ⟨[], by simp [h]⟩
  | x :: y :: rest, p, h => by
    obtain ⟨init, hi⟩ := exists_concat_of_pyLast (y :: rest) p (by simpa [pyLast] using h)
    exact ⟨x :: init, by simp [hi]⟩

theorem pyPenult_concat : ∀ (init : List Char), init ≠ [] → ∀ (p : Char),
    pyPenult (init ++ [p]) = pyLast init
  | [], h, _ => absurd rfl h
  | [_], _, _ => rfl
  | [_, _], _, _ => rfl
  | _ :: y :: z :: rest, _, p => by
    simpa [pyPenult, pyLast] using pyPenult_concat (y :: z :: rest) (by simp) p

theorem dropLast_concat_eq (init : List Char) (p : Char) : (init ++ [p]).dropLast = init := by
  simp

theorem pySetLast_concat (init : List Char) (p x : Char) :
    pySetLast (init ++ [p]) x = some (init ++ [x]) := by
  cases init with
  | nil => rfl
  | cons a rest =>
    have hd := dropLast_concat_eq (a :: rest) p
    simp only [pySetLast, List.cons_append]
    rw [← List.cons_append, hd]
    simp

theorem concat_length_sub_one (init : List Char) (p : Char) :
    (init ++ [p]).length = init.length + 1 := by
  simp

/-! ### Recomputed level: composition and monotonicity -/

theorem alookup_mem {β : Type} : ∀ (l : List (Char × β)) (k : Char) (v : β),
    alookup l k = some v → (k, v) ∈ l
  | [], _, _, h => by simp [alookup] at h
  | (k', w) :: rest, k, v, h => by
    by_cases hk : k' = k
    · subst hk
      simp [alookup] at h
      simp [h]
    · simp [alookup, hk] at h
      exact List.mem_cons_of_mem _ (alookup_mem rest k v h)

theorem pathLevelAux_append (c : MarkovCracker) :
    ∀ (r r' : List Char) (acc : Int) (x : Char),
    pathLevelAux c acc x (r ++ r') =
      match pathLevelAux c acc x r, pyLast (x :: r) with
      | some L, some lastc => pathLevelAux c L lastc r'
      | _, _ => none
  | [], r', acc, x => by simp [pathLevelAux, pyLast]
  | y :: rs, r', acc, x => by
    show pathLevelAux c acc x (y :: (rs ++ r')) = _
    cases he : alookup c.markov_stats x with
    | none => simp [pathLevelAux, he]
    | some e =>
      cases hfe : alookup e.following_letters y with
      | none => simp [pathLevelAux, he, hfe]
      | some fe =>
        have ih := pathLevelAux_append c rs r' (acc + fe.probability) y
        have hlast : pyLast (x :: y :: rs) = pyLast (y :: rs) := rfl
        simp only [pathLevelAux, he, hfe, hlast]
        exact ih

theorem pathLevelAux_mono (c : MarkovCracker) (hpos : probs_pos c) :
    ∀ (r : List Char) (acc : Int) (x : Char) (v : Int),
    pathLevelAux c acc x r = some v → acc ≤ v
  | [], acc, x, v, h => by
    simp [pathLevelAux] at h
    omega
  | y :: rs, acc, x, v, h => by
    cases he : alookup c.markov_stats x with
    | none => simp [pathLevelAux, he] at h
    | some e =>
      cases hfe : alookup e.following_letters y with
      | none => simp [pathLevelAux, he, hfe] at h
      | some fe =>
        simp only [pathLevelAux, he, hfe] at h
        have hrec := pathLevelAux_mono c hpos rs (acc + fe.probability) y v h
        have hp : 0 < fe.probability :=
          hpos (x, e) (alookup_mem _ _ _ he) (y, fe) (alookup_mem _ _ _ hfe)
        omega

/-- Appending one character to a non-empty path adds exactly the transition
probability of the edge from the old last character. -/
theorem pathLevel_concat (c : MarkovCracker) (init : List Char) (prev p : Char)
    (pe : LetterEntry) (fe : FollowingEntry)
    (hprev : pyLast init = some prev)
    (hpe : alookup c.markov_stats prev = some pe)
    (hfe : alookup pe.following_letters p = some fe) :
    pathLevel c (init ++ [p]) = (pathLevel c init).map (fun L => L + fe.probability) := by
  obtain ⟨init0, rfl⟩ := exists_concat_of_pyLast init prev hprev
  cases init0 with
  | nil =>
    simp [pathLevel, pathLevelAux, hpe, hfe]
  | cons a r =>
    show pathLevel c (a :: (r ++ [prev] ++ [p])) = (pathLevel c (a :: (r ++ [prev]))).map _
    cases hea : alookup c.markov_stats a with
    | none => simp [pathLevel, hea]
    | some ea =>
      simp only [pathLevel, hea]
      have happ := pathLevelAux_append c (r ++ [prev]) [p] ea.probability a
      have hlast : pyLast (a :: (r ++ [prev])) = some prev := by
        simpa using pyLast_concat (a :: r) prev
      rw [List.append_assoc] at happ ⊢
      rw [happ, hlast]
      cases haux : pathLevelAux c ea.probability a (r ++ [prev]) with
      | none => simp
      | some L => simp [pathLevelAux, hpe, hfe]

/-- Extending a path never lowers its level when every transition
probability in the model is positive. -/
theorem pathLevel_mono (c : MarkovCracker) (hpos : probs_pos c)
    (p rest : List Char) (a b : Int)
    (ha : pathLevel c p = some a) (hb : pathLevel c (p ++ rest) = some b) : a ≤ b := by
  cases p with
  | nil => simp [pathLevel] at ha
  | cons x r =>
    cases he : alookup c.markov_stats x with
    | none => simp [pathLevel, he] at ha
    | some e =>
      simp only [pathLevel, he] at ha
      have hb' : pathLevelAux c e.probability x (r ++ rest) = some b := by
        simpa only [pathLevel, he, List.cons_append] using hb
      rw [pathLevelAux_append c r rest e.probability x, ha] at hb'
      cases hl : pyLast (x :: r) with
      | none => rw [hl] at hb'; simp at hb'
      | some lastc =>
        rw [hl] at hb'
        exact pathLevelAux_mono c hpos rest a lastc b hb'

/-! ### Soundness and invariant preservation of the traversal -/
theorem dig_deeper_good (c : MarkovCracker) :
    ∀ (fuel : Nat) (idx : MarkovIndex) (r : Option String × MarkovIndex),
    level_inv c idx → dig_deeper c fuel idx = some r →
    good_guess c idx.min_level idx.max_level r
  | 0, _, _, _, h => by simp [dig_deeper] at h
  | fuel + 1, idx, r, hinv, h => by
    obtain ⟨mn, mx, gs, lvl⟩ := idx
    cases gs with
    | none => simp [dig_deeper] at h
    | some g =>
      obtain ⟨hne, hpl⟩ := hinv g rfl
      simp only [dig_deeper] at h
      cases hl : pyLast g with
      | none => simp [hl] at h
      | some prev =>
        simp only [hl] at h
        cases he : alookup c.markov_stats prev with
        | none => simp [he] at h
        | some e =>
          simp only [he] at h
          cases hfc : e.first_child with
          | none =>
            simp only [hfc, Option.some.injEq] at h
            subst h
            exact ⟨rfl, rfl, hinv, by simp⟩
          | some cur =>
            simp only [hfc] at h
            cases hfe : alookup e.following_letters cur with
            | none => simp [hfe] at h
            | some fe =>
              simp only [hfe] at h
              have hplc : pathLevel c (g ++ [cur]) = some (lvl + fe.probability) := by
                rw [pathLevel_concat c g prev cur e fe hl he hfe, hpl]
                rfl
              by_cases hin : mn ≤ lvl + fe.probability ∧ lvl + fe.probability ≤ mx
              · rw [if_pos hin] at h
                simp only [Option.some.injEq] at h
                subst h
                refine ⟨rfl, rfl, ?_, ?_⟩
                · intro g' hg'
                  simp only [Option.some.injEq] at hg'
                  subst hg'
                  exact ⟨by simp, hplc⟩
                · intro s hs
                  simp only [Option.some.injEq] at hs
                  exact ⟨g ++ [cur], rfl, hs.symm, hplc, hin.1, hin.2⟩
              · rw [if_neg hin] at h
                by_cases hover : mx < lvl + fe.probability
                · rw [if_pos hover] at h
                  simp only [Option.some.injEq] at h
                  subst h
                  exact ⟨rfl, rfl, hinv, by simp⟩
                · rw [if_neg hover] at h
                  have hinv' : level_inv c ⟨mn, mx, some (g ++ [cur]), lvl + fe.probability⟩ := by
                    intro g' hg'
                    simp only [Option.some.injEq] at hg'
                    subst hg'
                    exact ⟨by simp, hplc⟩
                  exact dig_deeper_good c fuel ⟨mn, mx, some (g ++ [cur]), lvl + fe.probability⟩ r hinv' h

theorem dig_wider_base_good (c : MarkovCracker) (idx : MarkovIndex) (parent : Char)
    (mw : Bool) (rv : Option String) (idx' : MarkovIndex)
    (hlen : ∀ g, idx.guess = some g → g.length = 1)
    (h : dig_wider_base c idx parent = some (mw, rv, idx')) :
    good_guess c idx.min_level idx.max_level (rv, idx') := by
  obtain ⟨mn, mx, gs, lvl⟩ := idx
  simp only [dig_wider_base] at h
  cases hpe : alookup c.markov_stats parent with
  | none => simp [hpe] at h
  | some pe =>
    simp only [hpe] at h
    cases hnx : pe.next with
    | none =>
      simp only [hnx, Option.some.injEq, Prod.mk.injEq] at h
      obtain ⟨-, hrv, hidx⟩ := h
      subst hrv; subst hidx
      exact ⟨rfl, rfl, by intro g hg; simp at hg, by simp⟩
    | some cur =>
      simp only [hnx] at h
      cases hce : alookup c.markov_stats cur with
      | none => simp [hce] at h
      | some ce =>
        simp only [hce] at h
        by_cases hover : mx < ce.probability
        · rw [if_pos hover] at h
          simp only [Option.some.injEq, Prod.mk.injEq] at h
          obtain ⟨-, hrv, hidx⟩ := h
          subst hrv; subst hidx
          exact ⟨rfl, rfl, by intro g hg; simp at hg, by simp⟩
        · rw [if_neg hover] at h
          cases gs with
          | none => simp at h
          | some g =>
            have hg1 : g.length = 1 := hlen g rfl
            have hx : ∃ x, g = [x] := by
              cases g with
              | nil => simp at hg1
              | cons a t =>
                cases t with
                | nil => exact ⟨a, rfl⟩
                | cons b t2 => simp [List.length_cons] at hg1
            obtain ⟨x, rfl⟩ := hx
            have hset : pySetLast [x] cur = some [cur] := rfl
            simp only [hset] at h
            have hplc : pathLevel c [cur] = some ce.probability := by
              simp [pathLevel, pathLevelAux, hce]
            by_cases hin : mn ≤ ce.probability ∧ ce.probability ≤ mx
            · rw [if_pos hin] at h
              simp only [Option.some.injEq, Prod.mk.injEq] at h
              obtain ⟨-, hrv, hidx⟩ := h
              subst hrv; subst hidx
              refine ⟨rfl, rfl, ?_, ?_⟩
              · intro g' hg'
                simp only [Option.some.injEq] at hg'
                subst hg'
                exact ⟨by simp, hplc⟩
              · intro s hs
                simp only [Option.some.injEq] at hs
                exact ⟨[cur], rfl, hs.symm, hplc, hin.1, hin.2⟩
            · rw [if_neg hin] at h
              simp only [Option.some.injEq, Prod.mk.injEq] at h
              obtain ⟨-, hrv, hidx⟩ := h
              subst hrv; subst hidx
              refine ⟨rfl, rfl, ?_, by simp⟩
              intro g' hg'
              simp only [Option.some.injEq] at hg'
              subst hg'
              exact ⟨by simp, hplc⟩

theorem inner_loop_good (c : MarkovCracker) :
    ∀ (fuel : Nat) (idx : MarkovIndex) (res : InnerRes),
    level_inv c idx → inner_loop c fuel idx = some res →
    good_inner c idx.min_level idx.max_level res
  | 0, _, _, _, h => by simp [inner_loop] at h
  | fuel + 1, idx, res, hinv, h => by
    obtain ⟨mn, mx, gs, lvl⟩ := idx
    cases gs with
    | none => simp [inner_loop] at h
    | some g =>
      obtain ⟨hne, hpl⟩ := hinv g rfl
      simp only [inner_loop] at h
      cases hl : pyLast g with
      | none => simp [hl] at h
      | some parent =>
        simp only [hl] at h
        by_cases hg1 : g.length = 1
        · rw [if_pos hg1] at h
          cases hdw : dig_wider_base c ⟨mn, mx, some g, lvl⟩ parent with
          | none => simp [hdw] at h
          | some t =>
            obtain ⟨mw, rv, idx'⟩ := t
            simp only [hdw] at h
            have hgood := dig_wider_base_good c ⟨mn, mx, some g, lvl⟩ parent mw rv idx'
              (by intro g' hg'; simp only [Option.some.injEq] at hg'; subst hg'; exact hg1) hdw
            by_cases hmw : mw = true
            · rw [if_pos hmw] at h
              simp only [Option.some.injEq] at h
              subst h
              exact ⟨hgood.1, hgood.2.1, hgood.2.2.1⟩
            · rw [if_neg hmw] at h
              simp only [Option.some.injEq] at h
              subst h
              exact hgood
        · rw [if_neg hg1] at h
          obtain ⟨init, rfl⟩ := exists_concat_of_pyLast g parent hl
          have hinit : init ≠ [] := by
            intro hcontra
            subst hcontra
            simp at hg1
          cases hp : pyPenult (init ++ [parent]) with
          | none => simp [hp] at h
          | some prev =>
            simp only [hp] at h
            have hpi : pyLast init = some prev := by
              rw [← pyPenult_concat init hinit parent, hp]
            cases hpe : alookup c.markov_stats prev with
            | none => simp [hpe] at h
            | some pe =>
              simp only [hpe] at h
              cases hfe : alookup pe.following_letters parent with
              | none => simp [hfe] at h
              | some fe =>
                simp only [hfe] at h
                have hdec := pathLevel_concat c init prev parent pe fe hpi hpe hfe
                rw [hdec] at hpl
                cases hpi0 : pathLevel c init with
                | none => rw [hpi0] at hpl; simp at hpl
                | some L0 =>
                  rw [hpi0] at hpl
                  simp only [Option.map_some', Option.some.injEq] at hpl
                  have hL0 : lvl - fe.probability = L0 := by omega
                  have hinv0 : level_inv c ⟨mn, mx, some init, lvl - fe.probability⟩ := by
                    intro g' hg'
                    simp only [Option.some.injEq] at hg'
                    subst hg'
                    exact ⟨hinit, by rw [hpi0, hL0]⟩
                  cases hnx : fe.next with
                  | none =>
                    simp only [hnx, dropLast_concat_eq] at h
                    exact inner_loop_good c fuel ⟨mn, mx, some init, lvl - fe.probability⟩ res hinv0 h
                  | some cur =>
                    simp only [hnx] at h
                    cases hfe2 : alookup pe.following_letters cur with
                    | none => simp [hfe2] at h
                    | some fe2 =>
                      simp only [hfe2] at h
                      have hplc : pathLevel c (init ++ [cur]) =
                          some (lvl - fe.probability + fe2.probability) := by
                        rw [pathLevel_concat c init prev cur pe fe2 hpi hpe hfe2, hpi0, hL0]
                        rfl
                      by_cases hin : mn ≤ lvl - fe.probability + fe2.probability ∧
                          lvl - fe.probability + fe2.probability ≤ mx
                      · rw [if_pos hin] at h
                        rw [pySetLast_concat] at h
                        simp only [Option.some.injEq] at h
                        subst h
                        refine ⟨rfl, rfl, ?_, ?_⟩
                        · intro g' hg'
                          simp only [Option.some.injEq] at hg'
                          subst hg'
                          exact ⟨by simp, hplc⟩
                        · intro s hs
                          simp only [Option.some.injEq] at hs
                          exact ⟨init ++ [cur], rfl, hs.symm, hplc, hin.1, hin.2⟩
                      · rw [if_neg hin] at h
                        by_cases hlt : lvl - fe.probability + fe2.probability < mx
                        · rw [if_pos hlt] at h
                          rw [pySetLast_concat] at h
                          simp only [Option.some.injEq] at h
                          subst h
                          refine ⟨rfl, rfl, ?_⟩
                          intro g' hg'
                          simp only [Option.some.injEq] at hg'
                          subst hg'
                          exact ⟨by simp, hplc⟩
                        · rw [if_neg hlt] at h
                          rw [dropLast_concat_eq] at h
                          exact inner_loop_good c fuel ⟨mn, mx, some init, lvl - fe.probability⟩ res hinv0 h

theorem outer_loop_good (c : MarkovCracker) :
    ∀ (fuel : Nat) (idx : MarkovIndex) (r : Option String × MarkovIndex),
    level_inv c idx → outer_loop c fuel idx = some r →
    good_guess c idx.min_level idx.max_level r
  | 0, _, _, _, h => by simp [outer_loop] at h
  | fuel + 1, idx, r, hinv, h => by
    simp only [outer_loop] at h
    cases hd : dig_deeper c (fuel + 1) idx with
    | none => simp [hd] at h
    | some t =>
      obtain ⟨ov, idx1⟩ := t
      simp only [hd] at h
      have g1 := dig_deeper_good c (fuel + 1) idx (ov, idx1) hinv hd
      cases ov with
      | some s =>
        simp only [Option.some.injEq] at h
        subst h
        exact g1
      | none =>
        cases hi : inner_loop c (fuel + 1) idx1 with
        | none => simp [hi] at h
        | some res =>
          simp only [hi] at h
          have g2 := inner_loop_good c (fuel + 1) idx1 res g1.2.2.1 hi
          rw [g1.1, g1.2.1] at g2
          cases res with
          | ret v idx2 =>
            simp only [Option.some.injEq] at h
            subst h
            exact g2
          | brk idx2 =>
            have g3 := outer_loop_good c fuel idx2 r g2.2.2 h
            rw [g2.1, g2.2.1] at g3
            exact g3

theorem next_guess_good (c : MarkovCracker) (fuel : Nat) (idx : MarkovIndex)
    (r : Option String × MarkovIndex) (hinv : level_inv c idx)
    (h : next_guess c fuel idx = some r) :
    good_guess c idx.min_level idx.max_level r := by
  obtain ⟨mn, mx, gs, lvl⟩ := idx
  cases gs with
  | some g => exact outer_loop_good c fuel _ r hinv h
  | none =>
    simp only [next_guess] at h
    cases hsl : c.start_letter with
    | none => simp [hsl] at h
    | some sl =>
      simp only [hsl] at h
      cases he : alookup c.markov_stats sl with
      | none => simp [he] at h
      | some e =>
        simp only [he] at h
        have hinv1 : level_inv c ⟨mn, mx, some [sl], e.probability⟩ := by
          intro g' hg'
          simp only [Option.some.injEq] at hg'
          subst hg'
          exact ⟨by simp, by simp [pathLevel, pathLevelAux, he]⟩
        by_cases hin : mn ≤ e.probability ∧ e.probability ≤ mx
        · rw [if_pos hin] at h
          simp only [Option.some.injEq] at h
          subst h
          refine ⟨rfl, rfl, hinv1, ?_⟩
          intro s hs
          simp only [Option.some.injEq] at hs
          exact ⟨[sl], rfl, hs.symm, by simp [pathLevel, pathLevelAux, he], hin.1, hin.2⟩
        · rw [if_neg hin] at h
          exact outer_loop_good c fuel ⟨mn, mx, some [sl], e.probability⟩ r hinv1 h

/-! ### Further helpers used by the claim theorems -/

theorem isPrefixOf_eq_true_iff : ∀ (p s : List Char), p.isPrefixOf s = true ↔ ∃ t, s = p ++ t
  | [], s => by simp [List.isPrefixOf]
  | _ :: _, [] => by simp [List.isPrefixOf]
  | a :: as, b :: bs => by
    simp only [List.isPrefixOf, Bool.and_eq_true, beq_iff_eq]
    constructor
    · rintro ⟨rfl, h⟩
      obtain ⟨t, rfl⟩ := (isPrefixOf_eq_true_iff as bs).mp h
      exact ⟨t, rfl⟩
    · rintro ⟨t, ht⟩
      injection ht with h1 h2
      exact ⟨h1.symm, (isPrefixOf_eq_true_iff as bs).mpr ⟨t, h2⟩⟩

theorem pyLast_replicate (a : Char) : ∀ (n : Nat), pyLast (List.replicate (n + 1) a) = some a
  | 0 => rfl
  | m + 1 => by
    have ih := pyLast_replicate a m
    simpa [List.replicate_succ, pyLast] using ih

theorem take_guesses_sound_aux (c : MarkovCracker) (fuel : Nat) :
    ∀ (k : Nat) (idx : MarkovIndex) (s : String), level_inv c idx →
    s ∈ take_guesses c fuel k idx →
    ∃ g lvl, s = String.mk g ∧ pathLevel c g = some lvl ∧
      idx.min_level ≤ lvl ∧ lvl ≤ idx.max_level
  | 0, _, s, _, hmem => by simp [take_guesses] at hmem
  | k + 1, idx, s, hinv, hmem => by
    simp only [take_guesses] at hmem
    cases hn : next_guess c fuel idx with
    | none => simp [hn] at hmem
    | some t =>
      obtain ⟨ov, idx'⟩ := t
      cases ov with
      | none => simp [hn] at hmem
      | some s0 =>
        simp only [hn] at hmem
        have hg := next_guess_good c fuel idx (some s0, idx') hinv hn
        rcases List.mem_cons.mp hmem with rfl | hmem'
        · obtain ⟨g, _, hs, hpl, h1, h2⟩ := hg.2.2.2 s rfl
          exact ⟨g, idx'.guess_level, hs, hpl, h1, h2⟩
        · have hrec := take_guesses_sound_aux c fuel k idx' s hg.2.2.1 hmem'
          rw [hg.1, hg.2.1] at hrec
          exact hrec

theorem load_lines_fail (l0 : String) (h1 : pyContains "=proba1".data l0.data = false)
    (h2 : pyContains "=proba2".data l0.data = false) :
    ∀ (lines : List String), l0 ∈ lines → ∀ st, load_lines st lines = none
  | [], hmem, _ => by simp at hmem
  | l :: ls, hmem, st => by
    simp only [load_lines]
    rcases List.mem_cons.mp hmem with rfl | hmem'
    · have hnone : load_line st l0.data = none := by
        simp only [load_line]
        rw [if_neg (by simp [h1]), if_neg (by simp [h2])]
      rw [hnone]
    · cases hl : load_line st l.data with
      | none => rfl
      | some st' => exact load_lines_fail l0 h1 h2 ls hmem' st'

/-! ### The claims -/

/-- C1: soundness of the level band.  Whenever `next_guess` on a
well-formed cursor returns a guess string, that string is the cursor's
path, and its cumulative level — the `start_probability` of its first
character plus the transition probabilities along consecutive character
pairs, as recomputed from the model by `pathLevel` — satisfies
`min_level ≤ level ≤ max_level`, both bounds inclusive. -/
theorem next_guess_level_in_range (c : MarkovCracker) (fuel : Nat)
    (idx idx' : MarkovIndex) (s : String)
    (hinv : level_inv c idx)
    (h : next_guess c fuel idx = some (some s, idx')) :
    ∃ g, idx'.guess = some g ∧ s = String.mk g ∧
      pathLevel c g = some idx'.guess_level ∧
      idx.min_level ≤ idx'.guess_level ∧ idx'.guess_level ≤ idx.max_level :=
  (next_guess_good c fuel idx (some s, idx') hinv h).2.2.2 s rfl

/-- C1 witness: the first guess of the §8 scenario session. -/
theorem next_guess_level_in_range_app :
    ∃ g, some ['a'] = some g ∧ "a" = String.mk g ∧
      pathLevel modelScenario g = some (0 : Int) ∧ (0 : Int) ≤ 0 ∧ (0 : Int) ≤ 3 :=
  next_guess_level_in_range modelScenario 5 (markovIndexInit 0 3) ⟨0, 3, some ['a'], 0⟩ "a"
    (by intro g hg; simp [markovIndexInit] at hg) (by decide)

/-- C2 counterexample: with bounds `[0,3]`, `modelPrune` (load order b, c,
d under a, with c over-limit) exhausts after "a", "ab" although "ad" is
reachable with level 1 ∈ [0,3]; and `modelDup` (built from a duplicated
bigram line, which the loader accepts) returns "ay" twice in one run.  So
the enumeration is neither omission-free nor duplicate-free. -/
theorem enumeration_incomplete_and_repeats :
    (collect_guesses modelPrune 10 10 (markovIndexInit 0 3) = some ["a", "ab"] ∧
      pathLevel modelPrune ['a', 'd'] = some 1 ∧ (0 : Int) ≤ 1 ∧ (1 : Int) ≤ 3 ∧
      "ad" ∉ ["a", "ab"]) ∧
    take_guesses modelDup 10 3 (markovIndexInit 0 3) = ["a", "ay", "ay"] := by
  decide

/-- C2 amended: every string a session run returns has its recomputed
cumulative level inside `[min_level, max_level]`; but the run may omit
in-range reachable strings and may return a string more than once. -/
theorem take_guesses_all_in_range (c : MarkovCracker) (fuel k : Nat)
    (idx : MarkovIndex) (s : String) (hinv : level_inv c idx)
    (hmem : s ∈ take_guesses c fuel k idx) :
    ∃ g lvl, s = String.mk g ∧ pathLevel c g = some lvl ∧
      idx.min_level ≤ lvl ∧ lvl ≤ idx.max_level :=
  take_guesses_sound_aux c fuel k idx s hinv hmem

/-- C2 amended witness: the guess "ab" of the `modelPrune` session. -/
theorem take_guesses_all_in_range_app :
    ∃ g lvl, "ab" = String.mk g ∧ pathLevel modelPrune g = some lvl ∧
      (0 : Int) ≤ lvl ∧ lvl ≤ 3 :=
  take_guesses_all_in_range modelPrune 10 5 (markovIndexInit 0 3) "ab"
    (by intro g hg; simp [markovIndexInit] at hg) (by decide)

/-- C3 counterexample: on the one-character model, call 1 returns "a",
call 2 signals exhaustion (path set to absent), and call 3 on the very
same cursor returns "a" again instead of signalling exhaustion — the
session restarts. -/
theorem exhaustion_not_permanent :
    next_guess modelSolo 5 (markovIndexInit 0 3) = some (some "a", ⟨0, 3, some ['a'], 0⟩) ∧
    next_guess modelSolo 5 ⟨0, 3, some ['a'], 0⟩ = some (none, ⟨0, 3, none, 0⟩) ∧
    next_guess modelSolo 5 ⟨0, 3, none, 0⟩ = some (some "a", ⟨0, 3, some ['a'], 0⟩) := by
  decide

/-- C3 amended: exhaustion is not permanent.  A cursor whose `guess` is
absent (the state exhaustion leaves behind, which the source reuses as the
not-yet-started state) behaves on the next call exactly like a freshly
created cursor with the same bounds: enumeration restarts from the chain
head. -/
theorem next_guess_restarts_after_exhaustion (c : MarkovCracker) (fuel : Nat)
    (idx : MarkovIndex) (h : idx.guess = none) :
    next_guess c fuel idx = next_guess c fuel (markovIndexInit idx.min_level idx.max_level) := by
  obtain ⟨mn, mx, gs, lvl⟩ := idx
  cases gs with
  | some g => simp at h
  | none => rfl

/-- C3 amended witness: an exhausted cursor with stale `guess_level` 50
behaves like a fresh cursor. -/
theorem next_guess_restarts_after_exhaustion_app :
    next_guess modelSolo 5 ⟨0, 3, none, 50⟩ = next_guess modelSolo 5 (markovIndexInit 0 3) :=
  next_guess_restarts_after_exhaustion modelSolo 5 ⟨0, 3, none, 50⟩ rfl

/-- C4 counterexample: the model loaded from the scenario's four stats
lines is `modelScenario`, and the session with bounds `[0,3]` actually
yields "a", "aa", "aaa", "aaaa", …: the claimed third guess "ab" does not
appear among the first ten guesses and the session does not exhaust
(within ten calls) — because the in-range edge a→a=0 is descended forever. -/
theorem scenario_actual_first_guesses :
    load_markov_stats ["0=proba1[97]", "5=proba1[98]", "0=proba2[97*256+97]",
      "3=proba2[97*256+98]"] = some modelScenario ∧
    take_guesses modelScenario 10 4 (markovIndexInit 0 3) = ["a", "aa", "aaa", "aaaa"] ∧
    "ab" ∉ take_guesses modelScenario 10 10 (markovIndexInit 0 3) ∧
    collect_guesses modelScenario 10 10 (markovIndexInit 0 3) = none := by
  refine ⟨by decide, by decide, by decide, by decide⟩

/-- C4 amended: on the scenario model with bounds `[0,3]`, from any run of
`n+1` letters 'a' (level 0) the next call appends one more 'a' and returns
it: the session descends forever through a→a=0 and never reaches "ab" or
exhaustion. -/
theorem scenario_descends_forever (fuel n : Nat) :
    next_guess modelScenario (fuel + 1) ⟨0, 3, some (List.replicate (n + 1) 'a'), 0⟩ =
      some (some (String.mk (List.replicate (n + 2) 'a')),
        ⟨0, 3, some (List.replicate (n + 2) 'a'), 0⟩) := by
  have hrep : List.replicate (n + 1) 'a' ++ ['a'] = List.replicate (n + 2) 'a' :=
    (List.replicate_succ' (n + 1) 'a').symm
  have hdig : dig_deeper modelScenario (fuel + 1) ⟨0, 3, some (List.replicate (n + 1) 'a'), 0⟩ =
      some (some (String.mk (List.replicate (n + 2) 'a')),
        ⟨0, 3, some (List.replicate (n + 2) 'a'), 0⟩) := by
    simp only [dig_deeper, pyLast_replicate]
    norm_num [modelScenario, alookup, hrep]
  simp only [next_guess, outer_loop, hdig]

/-- C5 counterexample: widening at depth 2 in `modelPrune` from path "ab"
meets the over-limit sibling c (level 100 > 3) and thereupon abandons the
whole depth: the result pops to the single-character path and exhausts,
never examining the remaining sibling d although "ad" has level 1 ∈ [0,3];
the full session run confirms "ad" is never produced. -/
theorem over_limit_sibling_aborts_depth :
    inner_loop modelPrune 2 ⟨0, 3, some ['a', 'b'], 0⟩ =
      some (.ret none ⟨0, 3, none, 50⟩) ∧
    pathLevel modelPrune ['a', 'd'] = some 1 ∧
    collect_guesses modelPrune 10 10 (markovIndexInit 0 3) = some ["a", "ab"] := by
  refine ⟨by decide, by decide, by decide⟩

/-- C5 amended: in the widening loop at path length > 1, when the
candidate sibling's level exceeds `max_level` (and is not in range), the
source executes `del markov_index.guess[-1]`: the last path element is
removed and the search continues one level up — the remaining siblings at
that depth are abandoned en masse, not tried one by one. -/
theorem inner_loop_pops_on_over_limit_sibling (c : MarkovCracker) (fuel : Nat)
    (idx : MarkovIndex) (g : List Char) (parent prev cur : Char)
    (pe : LetterEntry) (fe fe2 : FollowingEntry)
    (hg : idx.guess = some g) (hlast : pyLast g = some parent) (hlen : ¬g.length = 1)
    (hprev : pyPenult g = some prev)
    (hpe : alookup c.markov_stats prev = some pe)
    (hfe : alookup pe.following_letters parent = some fe)
    (hnx : fe.next = some cur)
    (hfe2 : alookup pe.following_letters cur = some fe2)
    (hnr : ¬(idx.min_level ≤ idx.guess_level - fe.probability + fe2.probability ∧
        idx.guess_level - fe.probability + fe2.probability ≤ idx.max_level))
    (hnl : ¬(idx.guess_level - fe.probability + fe2.probability < idx.max_level)) :
    inner_loop c (fuel + 1) idx =
      inner_loop c fuel
        { idx with guess := some g.dropLast, guess_level := idx.guess_level - fe.probability } := by
  obtain ⟨mn, mx, gs, lvl⟩ := idx
  cases gs with
  | none => simp at hg
  | some g0 =>
    have hg0 : g0 = g := by simpa using hg
    subst hg0
    simp only [inner_loop, hlast, hprev, hpe, hfe, hnx, hfe2]
    rw [if_neg hlen, if_neg hnr, if_neg hnl]

/-- C5 amended witness: the concrete over-limit widening step of
`modelPrune` from path "ab". -/
theorem inner_loop_pops_on_over_limit_sibling_app :
    inner_loop modelPrune 2 ⟨0, 3, some ['a', 'b'], 0⟩ =
      inner_loop modelPrune 1 ⟨0, 3, some ['a'], 0 - 0⟩ :=
  inner_loop_pops_on_over_limit_sibling modelPrune 1 ⟨0, 3, some ['a', 'b'], 0⟩
    ['a', 'b'] 'b' 'a' 'c'
    ⟨0, [('b', ⟨0, some 'c'⟩), ('c', ⟨100, some 'd'⟩), ('d', ⟨1, none⟩)],
      some 'b', some 'd', some 'b'⟩
    ⟨0, some 'c'⟩ ⟨100, some 'd'⟩
    rfl rfl (by decide) rfl rfl rfl rfl rfl (by decide) (by decide)

/-- C6: the top-level short-circuit of `dig_wider_base`.  With the path at
length 1, if the current start character has no next sibling, or if the
next sibling's start probability exceeds `max_level`, the call immediately
sets the path to absent and reports no more work — the session is
exhausted and no further top-level characters are examined. -/
theorem dig_wider_base_short_circuit (c : MarkovCracker) (idx : MarkovIndex)
    (parent : Char) (pe : LetterEntry)
    (hpe : alookup c.markov_stats parent = some pe) :
    (pe.next = none →
      dig_wider_base c idx parent = some (false, none, { idx with guess := none })) ∧
    (∀ cur ce, pe.next = some cur → alookup c.markov_stats cur = some ce →
      idx.max_level < ce.probability →
      dig_wider_base c idx parent =
        some (false, none, { idx with guess := none, guess_level := ce.probability })) := by
  constructor
  · intro hn
    simp [dig_wider_base, hpe, hn]
  · intro cur ce hn hce hover
    simp only [dig_wider_base, hpe, hn, hce]
    rw [if_pos hover]

/-- C6 witness: in `modelPrune` with bounds `[0,3]`, widening from start
character b meets sibling c with start probability 60 > 3 and exhausts. -/
theorem dig_wider_base_short_circuit_app :
    dig_wider_base modelPrune ⟨0, 3, some ['b'], 50⟩ 'b' =
      some (false, none, ⟨0, 3, none, 60⟩) :=
  (dig_wider_base_short_circuit modelPrune ⟨0, 3, some ['b'], 50⟩ 'b'
    ⟨50, [], none, none, some 'c'⟩ rfl).2 'c'
    ⟨60, [], none, none, some 'd'⟩ rfl rfl (by decide)

/-- C7: prune-on-descent.  When appending the current last character's
`first_child` would push the cumulative level above `max_level`,
`dig_deeper` stops without appending and leaves the cursor unchanged; and,
provided every transition probability in the model is positive, no guess
the session ever returns (from any well-formed cursor with the same
`max_level`) extends the rejected prefix `g0 ++ [fc]` — the whole subtree
is pruned soundly. -/
theorem dig_deeper_prune_sound
    (c : MarkovCracker) (fuel : Nat) (idx : MarkovIndex) (g0 : List Char)
    (prev fc : Char) (e : LetterEntry) (fe : FollowingEntry)
    (hpos : probs_pos c)
    (hinv : level_inv c idx)
    (hg : idx.guess = some g0) (hlast : pyLast g0 = some prev)
    (he : alookup c.markov_stats prev = some e) (hfc : e.first_child = some fc)
    (hfe : alookup e.following_letters fc = some fe)
    (hover : idx.max_level < idx.guess_level + fe.probability)
    (idx' idx2 : MarkovIndex) (fuel' : Nat) (s : String)
    (hinv' : level_inv c idx')
    (hmx : idx'.max_level = idx.max_level)
    (hrun : next_guess c fuel' idx' = some (some s, idx2)) :
    dig_deeper c (fuel + 1) idx = some (none, idx) ∧
    (g0 ++ [fc]).isPrefixOf s.data = false := by
  obtain ⟨hne, hpl⟩ := hinv g0 hg
  have hcand : pathLevel c (g0 ++ [fc]) = some (idx.guess_level + fe.probability) := by
    rw [pathLevel_concat c g0 prev fc e fe hlast he hfe, hpl]
    rfl
  constructor
  · obtain ⟨mn, mx, gs, lvl⟩ := idx
    have hgs : gs = some g0 := hg
    subst hgs
    simp only [dig_deeper, hlast, he, hfc, hfe]
    rw [if_neg (by intro hcon; exact absurd hcon.2 (by exact not_le.mpr hover)), if_pos hover]
  · obtain ⟨g2, hg2, hs2, hpl2, hlo, hhi⟩ :=
      (next_guess_good c fuel' idx' (some s, idx2) hinv' hrun).2.2.2 s rfl
    cases hb : (g0 ++ [fc]).isPrefixOf s.data with
    | false => rfl
    | true =>
      exfalso
      obtain ⟨t, ht⟩ := (isPrefixOf_eq_true_iff (g0 ++ [fc]) s.data).mp hb
      have hdata : s.data = g2 := by rw [hs2]
      rw [hdata] at ht
      subst ht
      have hmono := pathLevel_mono c hpos (g0 ++ [fc]) t
        (idx.guess_level + fe.probability) idx2.guess_level hcand hpl2
      have hhi2 : idx2.guess_level ≤ idx'.max_level := hhi
      rw [hmx] at hhi2
      omega

/-- C7 witness: in `modelPos` (all transition probabilities positive) with
bounds `[0,3]`, the first child a of path "a" would have level 100 > 3:
descent stops unchanged, and the next guess the session returns, "b", does
not extend the rejected prefix "aa". -/
theorem dig_deeper_prune_sound_app :
    dig_deeper modelPos 2 ⟨0, 3, some ['a'], 0⟩ = some (none, ⟨0, 3, some ['a'], 0⟩) ∧
    (['a'] ++ ['a']).isPrefixOf "b".data = false :=
  dig_deeper_prune_sound modelPos 1 ⟨0, 3, some ['a'], 0⟩ ['a'] 'a' 'a'
    ⟨0, [('a', ⟨100, some 'b'⟩), ('b', ⟨1, none⟩)], some 'a', some 'b', some 'b'⟩
    ⟨100, some 'b'⟩ (by unfold probs_pos; decide)
    (by intro g hg; simp only [Option.some.injEq] at hg; subst hg
        exact ⟨by decide, by decide⟩)
    rfl rfl rfl rfl rfl (by decide)
    ⟨0, 3, some ['a'], 0⟩ ⟨0, 3, some ['b'], 1⟩ 3 "b"
    (by intro g hg; simp only [Option.some.injEq] at hg; subst hg
        exact ⟨by decide, by decide⟩)
    rfl (by decide)

/-- C8: cursor level invariant.  A call of `next_guess` on a well-formed
cursor (stored `guess_level` equal to the recomputed cumulative level of
the stored path) leaves the cursor well-formed, whether it returns a
guess, signals exhaustion, or hands back a cursor for the next call — so
between any two calls of a session the stored level equals the
recomputed level of the current path. -/
theorem next_guess_preserves_level_inv (c : MarkovCracker) (fuel : Nat)
    (idx : MarkovIndex) (r : Option String × MarkovIndex)
    (hinv : level_inv c idx) (h : next_guess c fuel idx = some r) :
    level_inv c r.2 :=
  (next_guess_good c fuel idx r hinv h).2.2.1

/-- C8 witness: the cursor after the first scenario guess is well-formed. -/
theorem next_guess_preserves_level_inv_app :
    level_inv modelScenario (⟨0, 3, some ['a'], 0⟩ : MarkovIndex) :=
  next_guess_preserves_level_inv modelScenario 5 (markovIndexInit 0 3)
    (some "a", ⟨0, 3, some ['a'], 0⟩)
    (by intro g hg; simp [markovIndexInit] at hg) (by decide)

/-- C9 counterexample: session creation never fails.  `MarkovIndex` with
`min_level = 5 > 2 = max_level` is constructed as a plain record (no
`InvalidRange` error exists anywhere in the source), and the resulting
cursor is usable: `next_guess` runs on it normally and signals exhaustion;
on the empty model, creation also succeeds and the error (a `KeyError`)
only surfaces inside the first `next_guess` call. -/
theorem markov_index_no_validation_cex :
    markovIndexInit 5 2 = ⟨5, 2, none, 0⟩ ∧
    next_guess modelSolo 5 (markovIndexInit 5 2) = some (none, ⟨5, 2, none, 0⟩) ∧
    next_guess emptyCracker 5 (markovIndexInit 4 2) = none := by
  refine ⟨by decide, by decide, by decide⟩

/-- C9 amended: `MarkovIndex.__init__` performs no validation: even when
`min_level > max_level` it returns the plain record with the given bounds,
an absent guess and level 0; and with an empty model the cursor is still
created — the first `next_guess` call then fails with a `KeyError`-style
exception, not an `InvalidRange` at creation time. -/
theorem markov_index_accepts_any_bounds (mn mx : Int) (fuel : Nat) (_h : mx < mn) :
    markovIndexInit mn mx = ⟨mn, mx, none, 0⟩ ∧
    next_guess emptyCracker fuel (markovIndexInit mn mx) = none :=
  ⟨rfl, rfl⟩

/-- C9 amended witness. -/
theorem markov_index_accepts_any_bounds_app :
    markovIndexInit 5 2 = ⟨5, 2, none, 0⟩ ∧
    next_guess emptyCracker 7 (markovIndexInit 5 2) = none :=
  markov_index_accepts_any_bounds 5 2 7 (by decide)

/-- C10 counterexample: the record `27=proba1[97x` matches neither the
documented unigram shape `<prob>=proba1[<code point>]` (its bracket group
is unterminated) nor the bigram shape, yet loading succeeds: the parser
only tests for the substring `=proba1` and then blindly drops the last
character, so the line is accepted as the unigram a=27 and a model is
returned. -/
theorem malformed_line_accepted :
    load_markov_stats ["27=proba1[97x"] =
      some ⟨[('a', ⟨27, [], none, none, none⟩)], some 'a'⟩ := by
  decide

/-- C10 amended: only a line containing neither the substring `=proba1`
nor `=proba2` is a guaranteed malformed-statistics failure: its presence
anywhere in the input makes the whole load abort with no model returned
(construction-time failure; `__init__` raises).  Lines that do contain a
marker are parsed positionally and can be accepted even when they violate
the documented record shapes. -/
theorem load_fails_on_marker_free_line (lines : List String) (l0 : String)
    (hmem : l0 ∈ lines)
    (h1 : pyContains "=proba1".data l0.data = false)
    (h2 : pyContains "=proba2".data l0.data = false) :
    load_markov_stats lines = none := by
  have := load_lines_fail l0 h1 h2 lines hmem
    { stats := [], start_letter := none, prev_proba1 := none }
  simp [load_markov_stats, this]

/-- C10 amended witness: a load containing the marker-free line "zzz"
fails. -/
theorem load_fails_on_marker_free_line_app :
    load_markov_stats ["0=proba1[97]", "zzz"] = none :=
  load_fails_on_marker_free_line ["0=proba1[97]", "zzz"] "zzz"
    (by decide) (by decide) (by decide)

end MarkovVerif
